import Mathlib

/-!
Shallow embedding of `src/main.py` (COTY - Coin of the Year API).

The persistence store (the Mongo collection `"coin"`) is modelled as a
`List Doc` in natural (insertion) order.  Documents carry the four fields
the program ever touches; `name`, `votes` and `color` are optional (the
code reads them with `doc.get(...)`), `symbol` is the unique key the code
filters on.  Each endpoint is a pure function from the store state to its
response together with the store state after the call.
-/

/-- A stored document of the `"coin"` collection (the `_id` field is
never read by the program and is omitted). `votes` is optional because
`serialize_coin` and the sort treat a missing `votes` field specially. -/
structure Doc where
  name : Option String
  symbol : String
  votes : Option Int
  color : Option String
deriving DecidableEq, Repr

/-- One element of the compile-time preset list `COINS_PRESET`. -/
structure PresetCoin where
  name : String
  symbol : String
  color : String
deriving DecidableEq, Repr

/-- The six preset coins of `main.py` lines 27-34. -/
def COINS_PRESET : List PresetCoin :=
  [ ⟨"Bitcoin", "BTC", "#f59e0b"⟩,
    ⟨"Ethereum", "ETH", "#60a5fa"⟩,
    ⟨"Solana", "SOL", "#34d399"⟩,
    ⟨"Cardano", "ADA", "#93c5fd"⟩,
    ⟨"Polkadot", "DOT", "#f472b6"⟩,
    ⟨"Chainlink", "LINK", "#60a5fa"⟩ ]

/-- The document `update_one({"symbol": c.symbol}, {"$setOnInsert": ...},
upsert=True)` inserts when no document matches the filter: the filter
equality plus the `$setOnInsert` fields. -/
def presetDoc (c : PresetCoin) : Doc :=
  ⟨some c.name, c.symbol, some 0, some c.color⟩

/-- One `col.update_one({"symbol": ...}, {"$setOnInsert": ...}, upsert=True)`
call: when a document with the symbol exists the update has only
`$setOnInsert` operators, so the store is unchanged; otherwise the new
document is inserted (appended in natural order). -/
def upsertCoin (c : PresetCoin) (s : List Doc) : List Doc :=
  if s.any (fun d => d.symbol = c.symbol) then s
  else s ++ [presetDoc c]

/-- Embeds `initialize_coins` of `main.py` lines 37-48 (renamed): the loop
of upserts over `COINS_PRESET`, in order. -/
def init_coins (s : List Doc) : List Doc :=
  COINS_PRESET.foldl (fun acc c => upsertCoin c acc) s

/-- The serialized coin dictionary built by `serialize_coin`. -/
structure SCoin where
  name : Option String
  symbol : String
  votes : Int
  color : Option String
deriving DecidableEq, Repr

/-- Embeds `serialize_coin` of `main.py` lines 51-57:
`int(doc.get("votes", 0))` defaults a missing `votes` field to `0`. -/
def serialize_coin (d : Doc) : SCoin :=
  ⟨d.name, d.symbol, d.votes.getD 0, d.color⟩

/-- A serialized coin together with its 1-based `rank`. -/
structure RankedCoin where
  name : Option String
  symbol : String
  votes : Int
  color : Option String
  rank : Nat
deriving DecidableEq, Repr

/-- The leaderboard response `{"coins": ..., "totalVotes": ..., "leader": ...}`. -/
structure Leaderboard where
  coins : List RankedCoin
  totalVotes : Int
  leader : Option String
deriving DecidableEq, Repr

/-- The BSON sort key comparison used by `.sort("votes", -1)` on the
`votes` field, as a `Bool`-valued "a sorts no later than b" relation for
a descending sort: a missing field sorts below every number, so it comes
last in descending order. -/
def keyGeB : Option Int → Option Int → Bool
  | none, none => true
  | some _, none => true
  | none, some _ => false
  | some x, some y => decide (y ≤ x)

/-- The document ordering of `find({}, {"_id": 0}).sort("votes", -1)`:
`a` precedes-or-ties `b` when its `votes` key is at least `b`'s. -/
def docGe (a b : Doc) : Prop := keyGeB a.votes b.votes = true

instance : DecidableRel docGe := fun _ _ => decEq _ _

theorem keyGeB_total (u v : Option Int) : keyGeB u v = true ∨ keyGeB v u = true := by
  rcases u with _ | x <;> rcases v with _ | y <;> simp [keyGeB] <;> omega

theorem keyGeB_trans {u v w : Option Int} (h₁ : keyGeB u v = true)
    (h₂ : keyGeB v w = true) : keyGeB u w = true := by
  rcases u with _ | x <;> rcases v with _ | y <;> rcases w with _ | z <;>
    simp_all [keyGeB] <;> omega

instance : IsTotal Doc docGe := ⟨fun a b => keyGeB_total a.votes b.votes⟩

instance : IsTrans Doc docGe := ⟨fun _ _ _ hab hbc => keyGeB_trans hab hbc⟩

/-- Embeds `list(db["coin"].find({}, {"_id": 0}).sort("votes", -1))`: a
stable sort of the store in descending `votes` order (missing `votes`
last).  Stability models the store returning equal-key documents in
natural order. -/
def sortCoins (s : List Doc) : List Doc :=
  s.insertionSort docGe

/-- Embeds the loop `for idx, c in enumerate(coins, start=1)` of
`get_leaderboard`: serialize each document and attach its 1-based rank. -/
def rankFrom (i : Nat) : List Doc → List RankedCoin
  | [] => []
  | d :: rest =>
    let sc := serialize_coin d
    ⟨sc.name, sc.symbol, sc.votes, sc.color, i⟩ :: rankFrom (i + 1) rest

/-- The body of `get_leaderboard` after the store read: sort, total,
leader, rank (lines 62-69 of `main.py`). -/
def computeLeaderboard (s : List Doc) : Leaderboard :=
  let coins := sortCoins s
  { coins := rankFrom 1 coins
    totalVotes := (coins.map (fun c => c.votes.getD 0)).sum
    leader := coins.head?.map (fun c => c.symbol) }

/-- Embeds `get_leaderboard` of `main.py` lines 60-69.  It first runs the
coin initializer (line 61), which can mutate the store, so the result is
the response paired with the store state after the call. -/
def get_leaderboard (s : List Doc) : Leaderboard × List Doc :=
  let s' := init_coins s
  (computeLeaderboard s', s')

/-- Embeds the normalization `req.symbol.upper().strip()` on line 100:
upper-case every character, then strip surrounding whitespace. -/
def normSymbol (s : String) : String :=
  String.mk ((((s.data.map Char.toUpper).dropWhile Char.isWhitespace).reverse.dropWhile
    Char.isWhitespace).reverse)

/-- Embeds `find_one_and_update({"symbol": sym}, {"$inc": {"votes": 1}},
return_document=AFTER)`: increment the `votes` of the first matching
document (a missing `votes` field counts as `0`) and return the updated
document, or return `none` and leave the store unchanged. -/
def incFirst (sym : String) : List Doc → Option Doc × List Doc
  | [] => (none, [])
  | d :: rest =>
    if d.symbol = sym then
      let d' : Doc := { d with votes := some (d.votes.getD 0 + 1) }
      (some d', d' :: rest)
    else
      let r := incFirst sym rest
      (r.1, d :: r.2)

/-- The error raised by the vote endpoint. -/
inductive VoteError where
  | entryNotFound
deriving DecidableEq, Repr

/-- The HTTP status of `HTTPException(status_code=404, detail="Coin not found")`. -/
def VoteError.httpStatus : VoteError → Nat
  | .entryNotFound => 404

/-- Embeds the `vote` handler of `main.py` lines 95-110: normalize the
symbol, atomically increment the first matching document, raise 404 when
none matches (no mutation), otherwise return the freshly recomputed
leaderboard (whose initializer call may further mutate the store). -/
def vote (raw : String) (s : List Doc) : Except VoteError Leaderboard × List Doc :=
  let sym := normSymbol raw
  match incFirst sym s with
  | (none, s') => (Except.error VoteError.entryNotFound, s')
  | (some _, s') =>
    let r := get_leaderboard s'
    (Except.ok r.1, r.2)

/-- The store state after one call of the vote endpoint. -/
def voteStep (raw : String) (s : List Doc) : List Doc :=
  (vote raw s).2

/-- The store state after a sequence of vote calls, in order. -/
def applyVotes (rs : List String) (s : List Doc) : List Doc :=
  rs.foldl (fun acc r => voteStep r acc) s

/-- The first stored document whose `symbol` equals `sym` (the document
the filter `{"symbol": sym}` selects). -/
def findSym (sym : String) (s : List Doc) : Option Doc :=
  s.find? (fun d => d.symbol = sym)

/-- Whether some stored document has the given symbol. -/
def symExists (sym : String) (s : List Doc) : Bool :=
  (findSym sym s).isSome

/-- The votes counter of symbol `sym`: the `votes` field of the first
matching document, a missing field read as `0`. -/
def votesOf (sym : String) (s : List Doc) : Option Int :=
  (findSym sym s).map (fun d => d.votes.getD 0)

/-! ## Basic store lemmas -/

theorem any_eq_symExists (x : String) (s : List Doc) :
    s.any (fun d => d.symbol = x) = symExists x s := by
  simp only [symExists, findSym]
  rw [Bool.eq_iff_iff, List.any_eq_true, List.find?_isSome]

theorem findSym_append (x : String) (s t : List Doc) :
    findSym x (s ++ t) = (findSym x s).or (findSym x t) := by
  simp [findSym, List.find?_append]

theorem findSym_append_of_found {x : String} {s : List Doc} {d : Doc}
    (h : findSym x s = some d) (t : List Doc) : findSym x (s ++ t) = some d := by
  rw [findSym_append, h]; rfl

theorem symExists_append_left {x : String} {s : List Doc}
    (h : symExists x s = true) (t : List Doc) : symExists x (s ++ t) = true := by
  simp only [symExists] at h ⊢
  obtain ⟨d, hd⟩ := Option.isSome_iff_exists.mp h
  rw [findSym_append_of_found hd]
  rfl

theorem symExists_append_singleton (x : String) (s : List Doc) (d : Doc)
    (h : d.symbol ≠ x) : symExists x (s ++ [d]) = symExists x s := by
  simp only [symExists, findSym_append]
  rcases hf : findSym x s with _ | e
  · simp only [Option.or]
    simp [findSym, h]
  · rfl

theorem upsertCoin_cases (c : PresetCoin) (s : List Doc) :
    upsertCoin c s = s ∨
      (symExists c.symbol s = false ∧ upsertCoin c s = s ++ [presetDoc c]) := by
  by_cases h : symExists c.symbol s = true
  · left
    simp [upsertCoin, any_eq_symExists, h]
  · right
    rw [Bool.not_eq_true] at h
    constructor
    · exact h
    · simp [upsertCoin, any_eq_symExists, h]

theorem upsertCoin_of_present {c : PresetCoin} {s : List Doc}
    (h : symExists c.symbol s = true) : upsertCoin c s = s := by
  simp [upsertCoin, any_eq_symExists, h]

theorem upsertCoin_of_absent {c : PresetCoin} {s : List Doc}
    (h : symExists c.symbol s = false) : upsertCoin c s = s ++ [presetDoc c] := by
  simp [upsertCoin, any_eq_symExists, h]

/-- The generic fold of upserts only ever appends, and the appended
documents are preset documents from the list. -/
theorem foldl_upsert_append (cs : List PresetCoin) :
    ∀ s : List Doc, ∃ t, cs.foldl (fun acc c => upsertCoin c acc) s = s ++ t ∧
      ∀ d ∈ t, ∃ c ∈ cs, d = presetDoc c := by
  induction cs with
  | nil => intro s; exact ⟨[], by simp⟩
  | cons c cs ih =>
    intro s
    rcases upsertCoin_cases c s with h | ⟨_, h⟩
    · obtain ⟨t, ht, hmem⟩ := ih s
      refine ⟨t, by simpa [h] using ht, ?_⟩
      intro d hd
      obtain ⟨c', hc', hdc'⟩ := hmem d hd
      exact ⟨c', List.mem_cons_of_mem _ hc', hdc'⟩
    · obtain ⟨t, ht, hmem⟩ := ih (s ++ [presetDoc c])
      refine ⟨presetDoc c :: t, ?_, ?_⟩
      · simpa [h, List.append_assoc] using ht
      · intro d hd
        rcases List.mem_cons.mp hd with rfl | hd'
        · exact ⟨c, List.mem_cons_self _ _, rfl⟩
        · obtain ⟨c', hc', hdc'⟩ := hmem d hd'
          exact ⟨c', List.mem_cons_of_mem _ hc', hdc'⟩

theorem init_coins_append (s : List Doc) :
    ∃ t, init_coins s = s ++ t ∧ ∀ d ∈ t, ∃ c ∈ COINS_PRESET, d = presetDoc c :=
  foldl_upsert_append COINS_PRESET s

theorem findSym_init_of_found {x : String} {s : List Doc} {d : Doc}
    (h : findSym x s = some d) : findSym x (init_coins s) = some d := by
  obtain ⟨t, ht, -⟩ := init_coins_append s
  rw [ht]
  exact findSym_append_of_found h t

theorem symExists_init_of_exists {x : String} {s : List Doc}
    (h : symExists x s = true) : symExists x (init_coins s) = true := by
  obtain ⟨d, hd⟩ := Option.isSome_iff_exists.mp h
  simp only [symExists, findSym_init_of_found hd]
  rfl

theorem votesOf_init_of_exists {x : String} {s : List Doc}
    (h : symExists x s = true) : votesOf x (init_coins s) = votesOf x s := by
  obtain ⟨d, hd⟩ := Option.isSome_iff_exists.mp h
  simp only [votesOf, findSym_init_of_found hd, hd]

/-! ## Initializer lemmas -/

theorem symExists_upsertCoin_self (c : PresetCoin) (s : List Doc) :
    symExists c.symbol (upsertCoin c s) = true := by
  rcases upsertCoin_cases c s with h | ⟨habs, h⟩
  · rw [h]
    by_contra hne
    rw [Bool.not_eq_true] at hne
    rw [upsertCoin_of_absent hne] at h
    simp at h
  · rw [h, symExists]
    rcases hf : findSym c.symbol s with _ | d
    · rw [findSym_append, hf]
      simp [Option.or, findSym, presetDoc]
    · rw [findSym_append_of_found hf]
      rfl

theorem symExists_upsertCoin_of_exists {x : String} {s : List Doc}
    (c : PresetCoin) (h : symExists x s = true) :
    symExists x (upsertCoin c s) = true := by
  rcases upsertCoin_cases c s with hc | ⟨-, hc⟩
  · rwa [hc]
  · rw [hc]
    exact symExists_append_left h _

theorem symExists_foldl_upsert (cs : List PresetCoin) :
    ∀ s : List Doc, ∀ c ∈ cs,
      symExists c.symbol (cs.foldl (fun acc c => upsertCoin c acc) s) = true := by
  induction cs with
  | nil => intro s c hc; cases hc
  | cons c₀ cs ih =>
    intro s c hc
    rcases List.mem_cons.mp hc with rfl | hc'
    · simp only [List.foldl_cons]
      obtain ⟨t, ht, -⟩ := foldl_upsert_append cs (upsertCoin c s)
      rw [ht]
      exact symExists_append_left (symExists_upsertCoin_self c s) t
    · exact ih (upsertCoin c₀ s) c hc'

theorem symExists_init_preset (s : List Doc) :
    ∀ c ∈ COINS_PRESET, symExists c.symbol (init_coins s) = true :=
  symExists_foldl_upsert COINS_PRESET s

theorem foldl_upsert_of_all_present (cs : List PresetCoin) :
    ∀ s : List Doc, (∀ c ∈ cs, symExists c.symbol s = true) →
      cs.foldl (fun acc c => upsertCoin c acc) s = s := by
  induction cs with
  | nil => intro s _; rfl
  | cons c₀ cs ih =>
    intro s h
    have h₀ : upsertCoin c₀ s = s :=
      upsertCoin_of_present (h c₀ (List.mem_cons_self _ _))
    simp only [List.foldl_cons, h₀]
    exact ih s (fun c hc => h c (List.mem_cons_of_mem _ hc))

theorem init_coins_of_all_present {s : List Doc}
    (h : ∀ c ∈ COINS_PRESET, symExists c.symbol s = true) :
    init_coins s = s :=
  foldl_upsert_of_all_present COINS_PRESET s h

theorem init_coins_idem (s : List Doc) :
    init_coins (init_coins s) = init_coins s :=
  init_coins_of_all_present (symExists_init_preset s)

/-- The six preset symbols are pairwise distinct. -/
theorem preset_symbols_nodup : (COINS_PRESET.map (fun c => c.symbol)).Nodup := by
  decide

theorem findSym_foldl_of_found {x : String} {d : Doc} (cs : List PresetCoin)
    (s : List Doc) (h : findSym x s = some d) :
    findSym x (cs.foldl (fun acc c => upsertCoin c acc) s) = some d := by
  obtain ⟨t, ht, -⟩ := foldl_upsert_append cs s
  rw [ht]
  exact findSym_append_of_found h t

theorem findSym_foldl_of_absent {x : String} (cs : List PresetCoin) :
    ∀ s : List Doc, (cs.map (fun c => c.symbol)).Nodup →
      ∀ c ∈ cs, c.symbol = x → symExists x s = false →
        findSym x (cs.foldl (fun acc c => upsertCoin c acc) s) = some (presetDoc c) := by
  induction cs with
  | nil => intro s _ c hc; cases hc
  | cons c₀ cs ih =>
    intro s hnd c hc hcx habs
    have hnd' : (cs.map (fun c => c.symbol)).Nodup := (List.nodup_cons.mp hnd).2
    have h₀ : c₀.symbol ∉ cs.map (fun c => c.symbol) := (List.nodup_cons.mp hnd).1
    rcases List.mem_cons.mp hc with rfl | hc'
    · subst hcx
      have hup : upsertCoin c s = s ++ [presetDoc c] := upsertCoin_of_absent habs
      have hfound : findSym c.symbol (s ++ [presetDoc c]) = some (presetDoc c) := by
        rw [findSym_append]
        simp only [symExists] at habs
        rcases hf : findSym c.symbol s with _ | e
        · simp [Option.or, findSym, presetDoc]
        · rw [hf] at habs; simp at habs
      simp only [List.foldl_cons, hup]
      exact findSym_foldl_of_found cs _ hfound
    · have hne : c₀.symbol ≠ x := by
        intro he
        exact h₀ (he ▸ hcx ▸ List.mem_map_of_mem (fun c => c.symbol) hc')
      have habs' : symExists x (upsertCoin c₀ s) = false := by
        rcases upsertCoin_cases c₀ s with hcc | ⟨-, hcc⟩
        · rwa [hcc]
        · rw [hcc, symExists_append_singleton x s (presetDoc c₀) hne]
          exact habs
      exact ih (upsertCoin c₀ s) hnd' c hc' hcx habs'

theorem findSym_init_of_absent_preset {c : PresetCoin} {s : List Doc}
    (hc : c ∈ COINS_PRESET) (habs : symExists c.symbol s = false) :
    findSym c.symbol (init_coins s) = some (presetDoc c) :=
  findSym_foldl_of_absent COINS_PRESET s preset_symbols_nodup c hc rfl habs

/-! ## Increment lemmas -/

theorem findSym_cons (x : String) (d : Doc) (rest : List Doc) :
    findSym x (d :: rest) = if d.symbol = x then some d else findSym x rest := by
  by_cases hd : d.symbol = x
  · simp [findSym, List.find?_cons_of_pos, hd]
  · simp [findSym, List.find?_cons_of_neg, hd]

theorem symExists_cons (x : String) (d : Doc) (rest : List Doc) :
    symExists x (d :: rest) = if d.symbol = x then true else symExists x rest := by
  by_cases hd : d.symbol = x <;> simp [symExists, findSym_cons, hd]

theorem incFirst_of_absent {sym : String} :
    ∀ {s : List Doc}, symExists sym s = false → incFirst sym s = (none, s) := by
  intro s
  induction s with
  | nil => intro _; rfl
  | cons d rest ih =>
    intro h
    rw [symExists_cons] at h
    by_cases hd : d.symbol = sym
    · rw [if_pos hd] at h; cases h
    · rw [if_neg hd] at h
      simp [incFirst, hd, ih h]

theorem incFirst_fst_isSome {sym : String} :
    ∀ {s : List Doc}, symExists sym s = true → ((incFirst sym s).1).isSome = true := by
  intro s
  induction s with
  | nil => intro h; simp [symExists, findSym] at h
  | cons d rest ih =>
    intro h
    rw [symExists_cons] at h
    by_cases hd : d.symbol = sym
    · simp [incFirst, hd]
    · rw [if_neg hd] at h
      simp only [incFirst, if_neg hd]
      exact ih h

theorem votesOf_incFirst_self (sym : String) :
    ∀ s : List Doc,
      votesOf sym (incFirst sym s).2 = (votesOf sym s).map (fun v => v + 1) := by
  intro s
  induction s with
  | nil => rfl
  | cons d rest ih =>
    by_cases hd : d.symbol = sym
    · simp [incFirst, hd, votesOf, findSym_cons]
    · simp only [incFirst, if_neg hd]
      simp only [votesOf, findSym_cons, if_neg hd] at ih ⊢
      exact ih

theorem findSym_incFirst_other {x sym : String} (hne : x ≠ sym) :
    ∀ s : List Doc, findSym x (incFirst sym s).2 = findSym x s := by
  intro s
  induction s with
  | nil => rfl
  | cons d rest ih =>
    by_cases hd : d.symbol = sym
    · have hsx : ¬(sym = x) := fun he => hne he.symm
      simp [incFirst, hd, findSym_cons, hsx]
    · simp only [incFirst, if_neg hd]
      rw [findSym_cons, findSym_cons, ih]

theorem symExists_incFirst (x sym : String) (s : List Doc) :
    symExists x (incFirst sym s).2 = symExists x s := by
  by_cases hx : x = sym
  · subst hx
    rcases h : symExists x s with _ | _
    · rw [incFirst_of_absent h, h]
    · have := votesOf_incFirst_self x s
      obtain ⟨d, hd⟩ := Option.isSome_iff_exists.mp h
      simp only [votesOf, hd, Option.map_some] at this
      obtain ⟨d', hd', -⟩ := Option.map_eq_some'.mp this
      simp only [symExists, hd']
      rfl
  · simp only [symExists, findSym_incFirst_other hx]

/-! ## Vote-step lemmas -/

theorem vote_def (raw : String) (s : List Doc) :
    vote raw s =
      match incFirst (normSymbol raw) s with
      | (none, s') => (Except.error VoteError.entryNotFound, s')
      | (some _, s') => (Except.ok (get_leaderboard s').1, (get_leaderboard s').2) := rfl

theorem vote_eq_of_absent {raw : String} {s : List Doc}
    (h : symExists (normSymbol raw) s = false) :
    vote raw s = (Except.error VoteError.entryNotFound, s) := by
  rw [vote_def, incFirst_of_absent h]

theorem vote_eq_of_exists {raw : String} {s : List Doc}
    (h : symExists (normSymbol raw) s = true) :
    vote raw s =
      (Except.ok (computeLeaderboard (init_coins (incFirst (normSymbol raw) s).2)),
        init_coins (incFirst (normSymbol raw) s).2) := by
  obtain ⟨d, hd⟩ := Option.isSome_iff_exists.mp (incFirst_fst_isSome h)
  have hfull : incFirst (normSymbol raw) s =
      (some d, (incFirst (normSymbol raw) s).2) := by
    rw [← hd]
  rw [vote_def, hfull]
  rfl

theorem voteStep_of_exists {raw : String} {s : List Doc}
    (h : symExists (normSymbol raw) s = true) :
    voteStep raw s = init_coins (incFirst (normSymbol raw) s).2 := by
  unfold voteStep
  rw [vote_eq_of_exists h]

theorem symExists_voteStep (x : String) (raw : String) (s : List Doc)
    (h : symExists x s = true) : symExists x (voteStep raw s) = true := by
  rcases hr : symExists (normSymbol raw) s with _ | _
  · unfold voteStep
    rw [vote_eq_of_absent hr]
    exact h
  · rw [voteStep_of_exists hr]
    exact symExists_init_of_exists (by rw [symExists_incFirst]; exact h)

theorem votesOf_voteStep_self {raw : String} {s : List Doc}
    (h : symExists (normSymbol raw) s = true) :
    votesOf (normSymbol raw) (voteStep raw s) =
      (votesOf (normSymbol raw) s).map (fun v => v + 1) := by
  rw [voteStep_of_exists h]
  rw [votesOf_init_of_exists (by rw [symExists_incFirst]; exact h)]
  exact votesOf_incFirst_self (normSymbol raw) s

theorem votesOf_voteStep_other {x raw : String} {s : List Doc}
    (hne : x ≠ normSymbol raw) (h : symExists x s = true) :
    votesOf x (voteStep raw s) = votesOf x s := by
  rcases hr : symExists (normSymbol raw) s with _ | _
  · unfold voteStep
    rw [vote_eq_of_absent hr]
  · rw [voteStep_of_exists hr]
    rw [votesOf_init_of_exists (by rw [symExists_incFirst]; exact h)]
    simp only [votesOf, findSym_incFirst_other hne]

/-! ## Claim C1 -/

/-- C1: for every sequence of vote operations whose normalized symbols all
exist in the store, the votes counter of an existing symbol `S` after the
sequence equals its initial value plus the number of calls in the sequence
whose normalized symbol is `S`; in particular each successful vote raises
exactly that one counter by exactly 1 and leaves every other existing
counter unchanged (the count is 0 for every other symbol). -/
theorem claim_C1 (s : List Doc) (rs : List String)
    (hvalid : ∀ r ∈ rs, symExists (normSymbol r) s = true)
    (S : String) (hS : symExists S s = true) :
    votesOf S (applyVotes rs s) =
      (votesOf S s).map
        (fun v => v + ((rs.countP (fun r => normSymbol r = S) : Nat) : Int)) := by
  induction rs generalizing s with
  | nil =>
    rcases h : votesOf S s with _ | v <;> simp [applyVotes, h]
  | cons r rs ih =>
    have hr : symExists (normSymbol r) s = true := hvalid r (List.mem_cons_self _ _)
    have hvalid' : ∀ r' ∈ rs, symExists (normSymbol r') (voteStep r s) = true :=
      fun r' hr' => symExists_voteStep _ r s (hvalid r' (List.mem_cons_of_mem _ hr'))
    have hS' : symExists S (voteStep r s) = true := symExists_voteStep S r s hS
    have happ : applyVotes (r :: rs) s = applyVotes rs (voteStep r s) := rfl
    rw [happ, ih (voteStep r s) hvalid' hS']
    by_cases hSr : normSymbol r = S
    · subst hSr
      rw [votesOf_voteStep_self hr]
      rcases votesOf (normSymbol r) s with _ | v
      · rfl
      · simp only [List.countP_cons, decide_eq_true_eq, if_pos, Nat.cast_add,
          Nat.cast_one, Option.map_some']
        exact congrArg some (by ring)
    · rw [votesOf_voteStep_other (fun he => hSr he.symm) hS]
      rcases votesOf S s with _ | v
      · rfl
      · simp only [List.countP_cons, decide_eq_true_eq, if_neg hSr, Nat.add_zero]

/-- Witness for C1 on the freshly initialized store and three concrete votes. -/
theorem claim_C1_witness :
    votesOf "ETH" (applyVotes ["eth", " eth ", "BTC"] (init_coins [])) =
      (votesOf "ETH" (init_coins [])).map
        (fun v =>
          v + ((["eth", " eth ", "BTC"].countP (fun r => normSymbol r = "ETH") : Nat) : Int)) :=
  claim_C1 (init_coins []) ["eth", " eth ", "BTC"] (by decide) "ETH" (by decide)

/-! ## Claim C2 -/

/-- C2: the catalog initializer is idempotent: for every `n ≥ 1` running
it `n` times yields the same store as running it once.  For each preset
symbol, if no entry with that symbol exists it is created exactly as the
upsert writes it (`votes = 0`); if one exists, the entry found under that
symbol is exactly the one found before.  Moreover the initializer only
appends: every prior document is kept, in place, untouched. -/
theorem claim_C2 :
    (∀ (s : List Doc) (n : Nat), 1 ≤ n → init_coins^[n] s = init_coins s) ∧
    (∀ s : List Doc, ∀ c ∈ COINS_PRESET,
      (symExists c.symbol s = false →
        findSym c.symbol (init_coins s) = some (presetDoc c)) ∧
      (symExists c.symbol s = true →
        findSym c.symbol (init_coins s) = findSym c.symbol s)) ∧
    (∀ s : List Doc, ∃ t, init_coins s = s ++ t) := by
  refine ⟨?_, ?_, ?_⟩
  · have key : ∀ (s : List Doc) (m : Nat), init_coins^[m + 1] s = init_coins s := by
      intro s m
      induction m with
      | zero => simp
      | succ k ih => rw [Function.iterate_succ_apply', ih, init_coins_idem]
    intro s n hn
    obtain ⟨m, rfl⟩ : ∃ m, n = m + 1 := ⟨n - 1, by omega⟩
    exact key s m
  · intro s c hc
    constructor
    · intro habs
      exact findSym_init_of_absent_preset hc habs
    · intro hpres
      obtain ⟨d, hd⟩ := Option.isSome_iff_exists.mp hpres
      rw [findSym_init_of_found hd, hd]
  · intro s
    obtain ⟨t, ht, -⟩ := init_coins_append s
    exact ⟨t, ht⟩

/-- Witness for C2: three runs on the empty store equal one run, and the
absent preset `BTC` is created with `votes = 0`. -/
theorem claim_C2_witness :
    init_coins^[3] [] = init_coins [] ∧
    findSym "BTC" (init_coins []) = some (presetDoc ⟨"Bitcoin", "BTC", "#f59e0b"⟩) := by
  constructor
  · exact claim_C2.1 [] 3 (by decide)
  · exact (claim_C2.2.1 [] ⟨"Bitcoin", "BTC", "#f59e0b"⟩ (by decide)).1 (by decide)

/-! ## Leaderboard lemmas -/

/-- Drop the rank from a ranked coin, recovering the serialized coin. -/
def unrank (c : RankedCoin) : SCoin :=
  ⟨c.name, c.symbol, c.votes, c.color⟩

theorem rankFrom_map_unrank (l : List Doc) :
    ∀ i, (rankFrom i l).map unrank = l.map serialize_coin := by
  induction l with
  | nil => intro i; rfl
  | cons d rest ih =>
    intro i
    simp [rankFrom, unrank, ih (i + 1), serialize_coin]

theorem rankFrom_map_votes (l : List Doc) :
    ∀ i, (rankFrom i l).map (fun c => c.votes) = l.map (fun d => d.votes.getD 0) := by
  induction l with
  | nil => intro i; rfl
  | cons d rest ih =>
    intro i
    simp [rankFrom, ih (i + 1), serialize_coin]

theorem rankFrom_map_rank (l : List Doc) :
    ∀ i, (rankFrom i l).map (fun c => c.rank) = List.range' i l.length := by
  induction l with
  | nil => intro i; rfl
  | cons d rest ih =>
    intro i
    simp [rankFrom, List.range'_succ, ih (i + 1)]

theorem rankFrom_head?_symbol (l : List Doc) (i : Nat) :
    ((rankFrom i l).head?).map (fun c => c.symbol) =
      (l.head?).map (fun d => d.symbol) := by
  cases l <;> rfl

theorem mem_rankFrom {b : RankedCoin} {l : List Doc} :
    ∀ {i : Nat}, b ∈ rankFrom i l → ∃ e ∈ l, b.votes = (serialize_coin e).votes := by
  induction l with
  | nil => intro i hb; cases hb
  | cons d rest ih =>
    intro i hb
    rcases List.mem_cons.mp hb with rfl | hb'
    · exact ⟨d, List.mem_cons_self _ _, rfl⟩
    · obtain ⟨e, he, hbe⟩ := ih hb'
      exact ⟨e, List.mem_cons_of_mem _ he, hbe⟩

theorem rank_ge_of_mem_rankFrom {b : RankedCoin} {l : List Doc} :
    ∀ {i : Nat}, b ∈ rankFrom i l → i ≤ b.rank := by
  induction l with
  | nil => intro i hb; cases hb
  | cons d rest ih =>
    intro i hb
    rcases List.mem_cons.mp hb with rfl | hb'
    · exact le_refl _
    · exact le_trans (Nat.le_succ i) (ih hb')

theorem pairwise_rankFrom {l : List Doc}
    (h : l.Pairwise (fun a b => (serialize_coin b).votes ≤ (serialize_coin a).votes)) :
    ∀ i, (rankFrom i l).Pairwise (fun a b => b.votes ≤ a.votes) := by
  induction l with
  | nil => intro i; exact List.Pairwise.nil
  | cons d rest ih =>
    intro i
    rw [List.pairwise_cons] at h
    refine List.Pairwise.cons ?_ (ih h.2 (i + 1))
    intro b hb
    obtain ⟨e, he, hbe⟩ := mem_rankFrom hb
    rw [hbe]
    exact h.1 e he

/-- Non-negativity of every present `votes` field (the data-model
invariant; every state the program itself produces satisfies it). -/
def NonNegVotes (s : List Doc) : Prop :=
  ∀ d ∈ s, ∀ v, d.votes = some v → 0 ≤ v

theorem nonNegVotes_init {s : List Doc} (h : NonNegVotes s) :
    NonNegVotes (init_coins s) := by
  obtain ⟨t, ht, hmem⟩ := init_coins_append s
  rw [ht]
  intro d hd v hv
  rcases List.mem_append.mp hd with hd' | hd'
  · exact h d hd' v hv
  · obtain ⟨c, -, rfl⟩ := hmem d hd'
    simp only [presetDoc, Option.some.injEq] at hv
    omega

theorem serialized_le_of_docGe {a b : Doc} (hab : docGe a b)
    (hna : ∀ v, a.votes = some v → 0 ≤ v) :
    (serialize_coin b).votes ≤ (serialize_coin a).votes := by
  unfold docGe keyGeB at hab
  rcases ha : a.votes with _ | x <;> rcases hb : b.votes with _ | y <;>
      rw [ha, hb] at hab
  · simp [serialize_coin, ha, hb]
  · cases hab
  · simpa [serialize_coin, ha, hb] using hna x ha
  · simpa [serialize_coin, ha, hb] using of_decide_eq_true hab

/-! ## Claims C3 and C4 -/

/-- C3: the leaderboard query returns all stored entries (the returned
coins, ranks dropped, are a permutation of the serialized store after the
initializer runs), sorted by votes descending (given the data-model
invariant that present votes are non-negative), with 1-based ranks equal
to the positions in the sorted order, `totalVotes` equal to the sum of
the entries' votes, and `leader` the symbol of the top-ranked entry
(`none` exactly when no entries exist). -/
theorem claim_C3 (s : List Doc) (hnn : NonNegVotes s) :
    ((get_leaderboard s).1.coins.map unrank).Perm
        ((init_coins s).map serialize_coin) ∧
    (get_leaderboard s).1.coins.Pairwise (fun a b => b.votes ≤ a.votes) ∧
    (get_leaderboard s).1.coins.map (fun c => c.rank) =
      List.range' 1 (get_leaderboard s).1.coins.length ∧
    (get_leaderboard s).1.totalVotes =
      ((get_leaderboard s).1.coins.map (fun c => c.votes)).sum ∧
    (get_leaderboard s).1.leader =
      ((get_leaderboard s).1.coins.head?).map (fun c => c.symbol) := by
  have hcoins : (get_leaderboard s).1.coins =
      rankFrom 1 (sortCoins (init_coins s)) := rfl
  have hperm : (sortCoins (init_coins s)).Perm (init_coins s) :=
    List.perm_insertionSort docGe (init_coins s)
  have hsorted : (sortCoins (init_coins s)).Pairwise docGe :=
    List.sorted_insertionSort docGe (init_coins s)
  have hnn' : NonNegVotes (init_coins s) := nonNegVotes_init hnn
  refine ⟨?_, ?_, ?_, ?_, ?_⟩
  · rw [hcoins, rankFrom_map_unrank]
    exact hperm.map serialize_coin
  · rw [hcoins]
    refine pairwise_rankFrom ?_ 1
    refine hsorted.imp_of_mem ?_
    intro a b ha _ hab
    exact serialized_le_of_docGe hab (hnn' a (hperm.mem_iff.mp ha))
  · rw [hcoins, rankFrom_map_rank]
    have : (rankFrom 1 (sortCoins (init_coins s))).length =
        (sortCoins (init_coins s)).length := by
      have := congrArg List.length (rankFrom_map_unrank (sortCoins (init_coins s)) 1)
      simpa using this
    rw [this]
  · rw [hcoins, rankFrom_map_votes]
    rfl
  · rw [hcoins, rankFrom_head?_symbol]
    rfl

/-- Witness for C3 on the empty store. -/
theorem claim_C3_witness :
    (get_leaderboard ([] : List Doc)).1.leader =
      ((get_leaderboard ([] : List Doc)).1.coins.head?).map (fun c => c.symbol) :=
  (claim_C3 [] (by intro d hd; cases hd)).2.2.2.2

/-- C4: in every leaderboard result, `totalVotes` equals the sum of the
per-entry `votes` fields, the entry carrying rank 1 has the `leader`
symbol, and the rank fields over the `N` returned entries are exactly
`1, 2, ..., N` (in particular a permutation of `1..N` with no gaps or
duplicates). -/
theorem claim_C4 (s : List Doc) :
    (get_leaderboard s).1.totalVotes =
      ((get_leaderboard s).1.coins.map (fun c => c.votes)).sum ∧
    (∀ c ∈ (get_leaderboard s).1.coins, c.rank = 1 →
      (get_leaderboard s).1.leader = some c.symbol) ∧
    (get_leaderboard s).1.coins.map (fun c => c.rank) =
      List.range' 1 (get_leaderboard s).1.coins.length := by
  have hcoins : (get_leaderboard s).1.coins =
      rankFrom 1 (sortCoins (init_coins s)) := rfl
  refine ⟨?_, ?_, ?_⟩
  · rw [hcoins, rankFrom_map_votes]
    rfl
  · intro c hc hrank
    rw [hcoins] at hc
    cases hl : sortCoins (init_coins s) with
    | nil => rw [hl] at hc; cases hc
    | cons d rest =>
      rw [hl] at hc
      have hleader : (get_leaderboard s).1.leader = some d.symbol := by
        show ((sortCoins (init_coins s)).head?).map (fun c => c.symbol) = _
        rw [hl]
        rfl
      rcases List.mem_cons.mp hc with rfl | hc'
      · exact hleader
      · have := rank_ge_of_mem_rankFrom hc'
        omega
  · rw [hcoins, rankFrom_map_rank]
    have : (rankFrom 1 (sortCoins (init_coins s))).length =
        (sortCoins (init_coins s)).length := by
      have := congrArg List.length (rankFrom_map_unrank (sortCoins (init_coins s)) 1)
      simpa using this
    rw [this]

/-- Witness for C4: on the empty store the rank-1 entry is `BTC`, so the
leader field is `"BTC"`. -/
theorem claim_C4_witness :
    (get_leaderboard ([] : List Doc)).1.leader = some "BTC" :=
  (claim_C4 []).2.1 ⟨some "Bitcoin", "BTC", 0, some "#f59e0b", 1⟩ (by decide) rfl

/-! ## Claims C5 and C6 -/

/-- C5: when the normalized symbol matches no stored entry, the vote
operation fails with `entryNotFound` (HTTP 404) and performs no mutation:
the store after the failed call is exactly the store before it. -/
theorem claim_C5 (raw : String) (s : List Doc)
    (h : symExists (normSymbol raw) s = false) :
    (vote raw s).1 = Except.error VoteError.entryNotFound ∧
    (vote raw s).2 = s ∧
    VoteError.entryNotFound.httpStatus = 404 := by
  rw [vote_eq_of_absent h]
  exact ⟨rfl, rfl, rfl⟩

/-- Witness for C5: voting `"DOGE"` on the initialized store. -/
theorem claim_C5_witness :
    (vote "DOGE" (init_coins [])).1 = Except.error VoteError.entryNotFound ∧
    (vote "DOGE" (init_coins [])).2 = init_coins [] ∧
    VoteError.entryNotFound.httpStatus = 404 :=
  claim_C5 "DOGE" (init_coins []) (by decide)

/-- C6: the vote operation normalizes its input by upper-casing and then
trimming surrounding whitespace, so `" btc "` normalizes to `"BTC"` and
voting `" btc "` has, on every store state, exactly the same response and
the same resulting store as voting `"BTC"`. -/
theorem claim_C6 :
    normSymbol " btc " = "BTC" ∧ ∀ s : List Doc, vote " btc " s = vote "BTC" s := by
  constructor
  · rfl
  · intro s
    have h : normSymbol " btc " = normSymbol "BTC" := rfl
    rw [vote_def, vote_def, h]

/-! ## Claim C7 -/

/-- C7 counterexample: the leaderboard query is not free of side effects
on every store state: on the empty store it inserts the six preset
entries (via the initializer it runs first), changing the entry set. -/
theorem claim_C7_counterexample :
    (get_leaderboard ([] : List Doc)).2 ≠ ([] : List Doc) := by
  decide

/-- C7 (amended): the leaderboard query never modifies or removes an
existing entry and never changes an existing votes counter; its only
store effect is inserting absent preset entries (with `votes = 0`), and
on any store already containing every preset symbol it is a pure read
that leaves the store exactly unchanged. -/
theorem claim_C7 (s : List Doc) :
    (∃ t, (get_leaderboard s).2 = s ++ t ∧
      ∀ d ∈ t, ∃ c ∈ COINS_PRESET, d = presetDoc c) ∧
    (∀ x, symExists x s = true → votesOf x (get_leaderboard s).2 = votesOf x s) ∧
    ((∀ c ∈ COINS_PRESET, symExists c.symbol s = true) →
      (get_leaderboard s).2 = s) := by
  have h2 : (get_leaderboard s).2 = init_coins s := rfl
  refine ⟨?_, ?_, ?_⟩
  · rw [h2]
    exact init_coins_append s
  · intro x hx
    rw [h2]
    exact votesOf_init_of_exists hx
  · intro h
    rw [h2]
    exact init_coins_of_all_present h

/-- Witness for C7: on the already-initialized store the query leaves the
store unchanged. -/
theorem claim_C7_witness :
    (get_leaderboard (init_coins [])).2 = init_coins [] :=
  (claim_C7 (init_coins [])).2.2 (by decide)

/-! ## Claim C8 -/

/-- C8: end-to-end on a fresh (empty) store: the coins listing returns 6
entries, each with votes 0, `totalVotes = 0` and `leader = "BTC"`; a
subsequent vote for `"eth"` succeeds and its response shows `ETH` at rank
1 with votes 1, `totalVotes = 1` and `leader = "ETH"`. -/
theorem claim_C8 :
    (get_leaderboard ([] : List Doc)).1.coins.length = 6 ∧
    ((get_leaderboard ([] : List Doc)).1.coins.all (fun c => c.votes == 0)) = true ∧
    (get_leaderboard ([] : List Doc)).1.totalVotes = 0 ∧
    (get_leaderboard ([] : List Doc)).1.leader = some "BTC" ∧
    ((vote "eth" (get_leaderboard ([] : List Doc)).2).1.toOption.map
        (fun lb => lb.totalVotes)) = some 1 ∧
    ((vote "eth" (get_leaderboard ([] : List Doc)).2).1.toOption.map
        (fun lb => lb.leader)) = some (some "ETH") ∧
    ((vote "eth" (get_leaderboard ([] : List Doc)).2).1.toOption.map
        (fun lb => lb.coins.head?.map (fun c => (c.symbol, c.votes, c.rank)))) =
      some (some ("ETH", 1, 1)) := by
  decide

/-! ## Diagnostics endpoint -/

/-- The externally-owned store handle as the diagnostics endpoint
observes it: its `name` attribute when it has one, and the outcome of
`list_collection_names()` (a list, or a raised error message). -/
structure DbHandle where
  name : Option String
  collectionsResult : Except String (List String)
deriving Repr

/-- The response dictionary of the `/test` endpoint.  `database_url` and
`database_name` start as `None` in the code, hence the `Option`. -/
structure TestResponse where
  backend : String
  database : String
  database_url : Option String
  database_name : Option String
  connection_status : String
  collections : List String
deriving DecidableEq, Repr

/-- Embeds `str(e)[:50]`: the first 50 characters of the message. -/
def truncate50 (s : String) : String :=
  String.mk (s.data.take 50)

/-- Embeds `test_database` of `main.py` lines 113-148: build the default
response, fill in store status when the handle is present (catching a
`list_collection_names` failure into a truncated status string), then
unconditionally overwrite `database_url` and `database_name` with the
environment-variable checks of lines 145-146. -/
def test_database (db : Option DbHandle) (envUrl envName : Bool) : TestResponse :=
  let r0 : TestResponse :=
    { backend := "✅ Running", database := "❌ Not Available", database_url := none,
      database_name := none, connection_status := "Not Connected", collections := [] }
  let r1 :=
    match db with
    | some h =>
      let r2 := { r0 with database := "✅ Available",
                          database_url := some "✅ Configured",
                          database_name := some (h.name.getD "✅ Connected"),
                          connection_status := "Connected" }
      match h.collectionsResult with
      | Except.ok cols =>
        { r2 with collections := cols.take 10, database := "✅ Connected & Working" }
      | Except.error e =>
        { r2 with database := "⚠️  Connected but Error: " ++ truncate50 e }
    | none => { r0 with database := "⚠️  Available but not initialized" }
  { r1 with database_url := some (if envUrl then "✅ Set" else "❌ Not Set"),
            database_name := some (if envName then "✅ Set" else "❌ Not Set") }

/-! ## Claim C9 -/

/-- C9 counterexample: the diagnostics response does not report the
store's name even when it is available: the final environment-variable
check overwrites `database_name`, so for a connected store named
`"mydb"` the field is the env-check string either way, never `"mydb"`. -/
theorem claim_C9_counterexample :
    (test_database (some ⟨some "mydb", Except.ok []⟩) true true).database_name =
        some "✅ Set" ∧
    (test_database (some ⟨some "mydb", Except.ok []⟩) true false).database_name =
        some "❌ Not Set" ∧
    (test_database (some ⟨some "mydb", Except.ok []⟩) true true).database_name ≠
        some "mydb" := by
  decide

/-- C9 (amended): the diagnostics query reports whether the store
connection is established and at most 10 collection names (the listing
truncated to 10 when it succeeds, a truncated error string rendered into
the `database` field when it fails), and its `database_name` field only
reports whether the `DATABASE_NAME` environment variable is set — the
store's actual name is overwritten and never returned; the endpoint is a
total function that never propagates a failure to the caller. -/
theorem claim_C9 (db : Option DbHandle) (envUrl envName : Bool) :
    ((test_database db envUrl envName).connection_status =
      if db.isSome then "Connected" else "Not Connected") ∧
    (test_database db envUrl envName).collections.length ≤ 10 ∧
    (∀ h : DbHandle, db = some h → ∀ l, h.collectionsResult = Except.ok l →
      (test_database db envUrl envName).collections = l.take 10) ∧
    (∀ h : DbHandle, db = some h → ∀ e, h.collectionsResult = Except.error e →
      (test_database db envUrl envName).database =
        "⚠️  Connected but Error: " ++ truncate50 e) ∧
    ((test_database db envUrl envName).database_name =
      some (if envName then "✅ Set" else "❌ Not Set")) ∧
    (test_database db envUrl envName).backend = "✅ Running" := by
  rcases db with _ | h
  · refine ⟨rfl, by simp [test_database], ?_, ?_, rfl, rfl⟩
    · intro h hh
      cases hh
    · intro h hh
      cases hh
  · rcases hc : h.collectionsResult with e | l
    · refine ⟨by simp [test_database, hc], ?_, ?_, ?_, ?_, ?_⟩
      · simp [test_database, hc]
      · intro h' hh l hl
        cases hh
        rw [hc] at hl
        cases hl
      · intro h' hh e' he
        cases hh
        rw [hc] at he
        cases he
        simp [test_database, hc]
      · simp [test_database, hc]
      · simp [test_database, hc]
    · refine ⟨by simp [test_database, hc], ?_, ?_, ?_, ?_, ?_⟩
      · simp [test_database, hc, List.length_take]
      · intro h' hh l' hl
        cases hh
        rw [hc] at hl
        cases hl
        simp [test_database, hc]
      · intro h' hh e he
        cases hh
        rw [hc] at he
        cases he
      · simp [test_database, hc]
      · simp [test_database, hc]

/-- Witness for C9: a connected handle with one collection. -/
theorem claim_C9_witness :
    (test_database (some ⟨some "db", Except.ok ["coin"]⟩) true true).collections =
      (["coin"] : List String).take 10 :=
  (claim_C9 (some ⟨some "db", Except.ok ["coin"]⟩) true true).2.2.1
    ⟨some "db", Except.ok ["coin"]⟩ rfl ["coin"] rfl

/-! ## Claim C10 -/

/-- C10: the serialization coerces the votes field to an integer and
treats a missing votes field as 0, so every returned leaderboard entry
carries the integer `votes.getD 0` of some stored document and
`totalVotes` is the well-defined integer sum of those defaults over the
whole (initialized) store. -/
theorem claim_C10 (s : List Doc) :
    (∀ d : Doc, (serialize_coin d).votes = d.votes.getD 0) ∧
    (∀ d : Doc, d.votes = none → (serialize_coin d).votes = 0) ∧
    ((get_leaderboard s).1.totalVotes =
      ((init_coins s).map (fun d => d.votes.getD 0)).sum) ∧
    (∀ c ∈ (get_leaderboard s).1.coins, ∃ d ∈ init_coins s,
      c.votes = d.votes.getD 0) := by
  refine ⟨fun d => rfl, ?_, ?_, ?_⟩
  · intro d h
    simp [serialize_coin, h]
  · show ((sortCoins (init_coins s)).map (fun c => c.votes.getD 0)).sum = _
    exact ((List.perm_insertionSort docGe (init_coins s)).map
      (fun c => c.votes.getD 0)).sum_eq
  · intro c hc
    have hc' : c ∈ rankFrom 1 (sortCoins (init_coins s)) := hc
    obtain ⟨e, he, hce⟩ := mem_rankFrom hc'
    exact ⟨e, (List.perm_insertionSort docGe (init_coins s)).mem_iff.mp he, hce⟩

/-- Witness for C10: a store containing a document with no votes field;
its serialized entry (at rank 7, after the six presets) carries votes 0
taken from that document. -/
theorem claim_C10_witness :
    ∃ d ∈ init_coins [⟨none, "XYZ", none, none⟩],
      (⟨none, "XYZ", 0, none, 7⟩ : RankedCoin).votes = d.votes.getD 0 :=
  (claim_C10 [⟨none, "XYZ", none, none⟩]).2.2.2
    ⟨none, "XYZ", 0, none, 7⟩ (by decide)
